import Mathlib

/-!
Verification of the core data structures of the text-recovery preparation tool:
the Damerau–Levenshtein edit-distance kernel with wildcard (`edit_distance.cpp`),
the BK-tree node (`bk_tree_node.cpp`) with its binary serialisation, the Trie
(`trie.cpp`, `trie_node.cpp`) and the builder's normalisation/filter pipeline
(`tree_builder.cpp`).  Strings are modelled as `List Char` (C++ `std::string`,
one byte per element), C++ `int` as `Int`, the work matrix of the distance
kernel as a total function `Nat → Nat → Int` (the C++ vector is
value-initialised to zero), and byte streams as `List Nat` with each element
below 256.
-/

set_option maxHeartbeats 1000000
set_option maxRecDepth 100000

namespace EditDistance

/-- `ALPHABET_SIZE` from edit_distance.h: 26 letters plus the wildcard. -/
def ALPHABET_SIZE : Nat := 27

/-- Embedding of `EditDistance::charToIndex`: `a..z ↦ 0..25`, `* ↦ 26`,
any other character `↦ -1`. -/
def charToIndex (c : Char) : Int :=
  if 'a' ≤ c ∧ c ≤ 'z' then (c.toNat : Int) - ('a'.toNat : Int)
  else if c = '*' then (ALPHABET_SIZE : Int) - 1
  else -1

/-- One `d[x][y] = v` assignment on the work matrix. -/
def upd (d : Nat → Nat → Int) (i j : Nat) (v : Int) : Nat → Nat → Int :=
  fun x y => if x = i ∧ y = j then v else d x y

/-- One iteration of the inner (`j`) loop of `EditDistance::editDistance`.
The loop state is `(db, d)`; `da` and the current row `i` are ambient.  `k`
and `l` are read before `db` is (possibly) set to `j`, exactly as in the
source, and the four candidate costs are substitution, insertion, deletion
and transposition in that order. -/
def cellStep (a b : List Char) (da : Int → Nat) (i : Nat)
    (st : Nat × (Nat → Nat → Int)) (j : Nat) : Nat × (Nat → Nat → Int) :=
  let db := st.1
  let d := st.2
  let ac := a.getD (i - 1) 'a'
  let bc := b.getD (j - 1) 'a'
  let k : Nat := da (charToIndex bc)
  let l : Nat := db
  let cost : Int := if ac = bc ∨ ac = '*' ∨ bc = '*' then 0 else 1
  let db' : Nat := if ac = bc ∨ ac = '*' ∨ bc = '*' then j else db
  let v := min (min (d i j + cost) (d (i + 1) j + 1))
      (min (d i (j + 1) + 1)
        (d k l + ((i : Int) - (k : Int) - 1) + 1 + ((j : Int) - (l : Int) - 1)))
  (db', upd d (i + 1) (j + 1) v)

/-- One iteration of the outer (`i`) loop of `EditDistance::editDistance`.
The loop state is `(da, d)`; `db` is reset to `0` at the start of each row
and `da[charToIndex(a[i-1])]` is set to `i` after the row. -/
def rowStep (a b : List Char) (st : (Int → Nat) × (Nat → Nat → Int)) (i : Nat) :
    (Int → Nat) × (Nat → Nat → Int) :=
  let da := st.1
  let d := ((List.range' 1 b.length).foldl (cellStep a b da i) (0, st.2)).2
  let ac := a.getD (i - 1) 'a'
  (fun idx => if idx = charToIndex ac then i else da idx, d)

/-- The sentinel-border phase of `EditDistance::editDistance`:
`d[0][0] = maxdist`, then `d[i][0] = maxdist, d[i][1] = i-1` for
`i = 1..len_a+1`, then `d[0][j] = maxdist, d[1][j] = j-1` for
`j = 1..len_b+1`. -/
def borders (a b : List Char) : Nat → Nat → Int :=
  let lenA := a.length
  let lenB := b.length
  let maxdist : Int := (lenA : Int) + (lenB : Int)
  let d0 : Nat → Nat → Int := fun _ _ => 0
  let d1 := upd d0 0 0 maxdist
  let d2 := (List.range' 1 (lenA + 1)).foldl
      (fun d i => upd (upd d i 0 maxdist) i 1 ((i : Int) - 1)) d1
  (List.range' 1 (lenB + 1)).foldl
      (fun d j => upd (upd d 0 j maxdist) 1 j ((j : Int) - 1)) d2

/-- Embedding of `EditDistance::editDistance` (src/lib/bk_tree/edit_distance.cpp):
Damerau–Levenshtein distance with adjacent transpositions and the wildcard `*`
as a free match.  After the border phase, the main loop runs rows
`i = 1..len_a` and the result is `d[len_a+1][len_b+1]`. -/
def editDistance (a b : List Char) : Int :=
  let lenA := a.length
  let fin := ((List.range' 1 lenA).foldl (rowStep a b) ((fun _ => 0), borders a b)).2
  fin (lenA + 1) (b.length + 1)

end EditDistance

/-- BK-tree node (`bk_tree_node.h`): a word and a collection of children keyed
by edit distance.  The C++ `std::unordered_map<int, unique_ptr<BKTreeNode>>`
is modelled as an association list with pairwise-distinct keys; a new key is
appended at the end, so list order stands in for the unspecified hash-iteration
order. -/
inductive BKTreeNode where
  | node (word : List Char) (children : List (Int × BKTreeNode))

namespace BKTreeNode

/-- `BKTreeNode::getWord`. -/
def getWord : BKTreeNode → List Char
  | .node w _ => w

/-- The children collection of a node. -/
def children : BKTreeNode → List (Int × BKTreeNode)
  | .node _ cs => cs

/-- `children.find(distance)` on the association list: the child stored under
the given edit distance, used by `BKTreeNode::hasChild` and
`BKTreeNode::getChild`. -/
def lookupA : List (Int × BKTreeNode) → Int → Option BKTreeNode
  | [], _ => none
  | (k, c) :: rest, d => if k = d then some c else lookupA rest d

/-- `BKTreeNode::hasChild`. -/
def hasChild (n : BKTreeNode) (distance : Int) : Bool :=
  (lookupA n.children distance).isSome

/-- `children[distance] = node` on the association list: replace the value at
an existing key, or append a fresh binding (used by `BKTreeNode::deserialize`;
`BKTreeNode::addChild` only ever hits the append case). -/
def assignA : List (Int × BKTreeNode) → Int → BKTreeNode → List (Int × BKTreeNode)
  | [], d, c => [(d, c)]
  | (k, c0) :: rest, d, c => if k = d then (k, c) :: rest else (k, c0) :: assignA rest d c

mutual
/-- Embedding of `BKTreeNode::insert`: walk from this node; at each node
compute `d = editDistance(word, node.word)`; if no child is keyed at `d`,
attach a new leaf there (`addChild`), otherwise descend into that child. -/
def insert : BKTreeNode → List Char → BKTreeNode
  | .node w' cs, w => .node w' (insertInto cs (EditDistance.editDistance w w') w)

/-- The effect of one `insert` walk on the children collection: descend into
the child keyed `d` if present, else append `addChild(d, w)`. -/
def insertInto : List (Int × BKTreeNode) → Int → List Char → List (Int × BKTreeNode)
  | [], d, w => [(d, .node w [])]
  | (k, c) :: rest, d, w =>
      if k = d then (k, c.insert w) :: rest else (k, c) :: insertInto rest d w
end

mutual
/-- Embedding of `BKTreeNode::find`: compute `d = editDistance(query, word)`;
record the word when `d ≤ tolerance`; recurse into every child whose key lies
in `[d - tolerance, d + tolerance]`, in iteration order.  `tolerance` is the
C++ `unsigned int`; `d` is always non-negative (see `editDistance_nonneg`), so
the source's signed/unsigned comparison `distance <= tolerance` agrees with
the `Int` comparison used here. -/
def find (q : List Char) (t : Nat) : BKTreeNode → List (List Char)
  | .node w cs =>
      let d := EditDistance.editDistance q w
      (if d ≤ (t : Int) then [w] else []) ++ findL q t (d - (t : Int)) (d + (t : Int)) cs

/-- The child loop of `BKTreeNode::find` over the children collection. -/
def findL (q : List Char) (t : Nat) (lo hi : Int) : List (Int × BKTreeNode) → List (List Char)
  | [] => []
  | (k, c) :: rest =>
      (if lo ≤ k ∧ k ≤ hi then find q t c else []) ++ findL q t lo hi rest
end

mutual
/-- Number of nodes of a BK-tree. -/
def size : BKTreeNode → Nat
  | .node _ cs => sizeL cs + 1

/-- Number of nodes below a children collection. -/
def sizeL : List (Int × BKTreeNode) → Nat
  | [] => 0
  | (_, c) :: rest => size c + sizeL rest
end

mutual
/-- Height of a BK-tree (number of nodes on the longest root path). -/
def height : BKTreeNode → Nat
  | .node _ cs => heightL cs + 1

/-- Maximum height over a children collection. -/
def heightL : List (Int × BKTreeNode) → Nat
  | [] => 0
  | (_, c) :: rest => max (height c) (heightL rest)
end

mutual
/-- All words stored in a BK-tree, in depth-first order. -/
def words : BKTreeNode → List (List Char)
  | .node w cs => w :: wordsL cs

/-- All words stored below a children collection. -/
def wordsL : List (Int × BKTreeNode) → List (List Char)
  | [] => []
  | (_, c) :: rest => words c ++ wordsL rest
end

/-- Step-indexed rendering of the `while(true)` loop of `BKTreeNode::insert`:
each iteration spends one unit of fuel and either attaches a new child and
returns, or descends into the child keyed at the computed distance.  `none`
means the fuel ran out before the loop returned. -/
def insertLoop : Nat → BKTreeNode → List Char → Option BKTreeNode
  | 0, _, _ => none
  | fuel + 1, .node w' cs, w =>
      let d := EditDistance.editDistance w w'
      match lookupA cs d with
      | none => some (.node w' (cs ++ [(d, .node w [])]))
      | some c => (insertLoop fuel c w).map fun c' => .node w' (assignA cs d c')

/-- Little-endian bytes of a 4-byte `unsigned int`. -/
def le32 (n : Nat) : List Nat :=
  [n % 256, n / 256 % 256, n / 256 ^ 2 % 256, n / 256 ^ 3 % 256]

/-- Little-endian bytes of a 2-byte `unsigned short`. -/
def le16 (n : Nat) : List Nat :=
  [n % 256, n / 256 % 256]

/-- Value of a little-endian byte sequence. -/
def fromLE (bs : List Nat) : Nat :=
  bs.foldr (fun b acc => b + 256 * acc) 0

/-- `is.read(buf, k)`: consume exactly `k` bytes of the stream, failing (the
C++ stream's failbit) when fewer are available. -/
def takeBytes (k : Nat) (l : List Nat) : Option (List Nat × List Nat) :=
  if k ≤ l.length then some (l.take k, l.drop k) else none

mutual
/-- Embedding of `BKTreeNode::serialize`: write `word_len` as `unsigned int`,
the word bytes, `num_children` as `unsigned int`, then for each child its
distance as `unsigned short` followed by the child, depth-first in iteration
order. -/
def serialize : BKTreeNode → List Nat
  | .node w cs =>
      le32 (w.length % 2 ^ 32) ++ w.map (fun c => c.toNat % 256) ++
        le32 (cs.length % 2 ^ 32) ++ serializeL cs

/-- The child loop of `BKTreeNode::serialize`. -/
def serializeL : List (Int × BKTreeNode) → List Nat
  | [] => []
  | (k, c) :: rest => le16 ((k % 65536).toNat) ++ serialize c ++ serializeL rest
end

mutual
/-- Fuel needed by `deserNode` to reconstruct a given tree (one unit per
node header plus one per child-loop step). -/
def needFuel : BKTreeNode → Nat
  | .node _ cs => needFuelL cs + 1

/-- Fuel needed by `deserChildren` for a children collection. -/
def needFuelL : List (Int × BKTreeNode) → Nat
  | [] => 1
  | (_, c) :: rest => max (needFuel c) (needFuelL rest) + 1
end

mutual
/-- Embedding of `BKTreeNode::deserialize`: read `word_len`, the word bytes,
`num_children`, then repeatedly a distance and a child, assigning each child
with `children[distance] = ...`.  The fuel argument only bounds the recursion
depth of the model; `deserialize` below supplies enough for any input. -/
def deserNode : Nat → List Nat → Option (BKTreeNode × List Nat)
  | 0, _ => none
  | fuel + 1, bytes => do
      let (lb, r1) ← takeBytes 4 bytes
      let (wb, r2) ← takeBytes (fromLE lb) r1
      let (cb, r3) ← takeBytes 4 r2
      deserChildren fuel (fromLE cb) [] (wb.map Char.ofNat) r3

/-- The child-reading loop of `BKTreeNode::deserialize`: `count` children
remain to be read into the accumulated collection `acc`. -/
def deserChildren : Nat → Nat → List (Int × BKTreeNode) → List Char → List Nat →
    Option (BKTreeNode × List Nat)
  | 0, _, _, _, _ => none
  | _ + 1, 0, acc, w, bytes => some (.node w acc, bytes)
  | fuel + 1, count + 1, acc, w, bytes => do
      let (db, r1) ← takeBytes 2 bytes
      let (c, r2) ← deserNode fuel r1
      deserChildren fuel count (assignA acc (fromLE db : Nat) c) w r2
end

/-- `BKTreeNode::deserialize` on a whole byte stream; the fuel
`bytes.length + 1` dominates the number of loop steps any parse can take,
since every node header consumes at least 8 bytes and every child entry at
least 2. -/
def deserialize (bytes : List Nat) : Option (BKTreeNode × List Nat) :=
  deserNode (bytes.length + 1) bytes

mutual
/-- Machine-range well-formedness of a BK-tree value, decidably: the word fits
a C++ string of bytes with `size()` below `2^32`, the children count is below
`2^32`, every child key is a distinct `int` representable as the serialised
`unsigned short` (`0 ≤ k < 2^16`), recursively. -/
def wfRange : BKTreeNode → Bool
  | .node w cs =>
      decide (w.length < 2 ^ 32) && w.all (fun c => decide (c.toNat < 256)) &&
      decide (cs.length < 2 ^ 32) && decide ((cs.map Prod.fst).Nodup) &&
      cs.all (fun p => decide (0 ≤ p.1 ∧ p.1 < 65536)) && wfRangeL cs

/-- `wfRange` over a children collection. -/
def wfRangeL : List (Int × BKTreeNode) → Bool
  | [] => true
  | (_, c) :: rest => wfRange c && wfRangeL rest
end

end BKTreeNode

/-- Modelled from the spec: the `BKTree` container (`bk_tree.h`; the
implementation file `bk_tree.cpp` is not among the provided sources).  It
owns an optionally-present root: absent until the first insert. -/
def BKTree := Option BKTreeNode

namespace BKTree

/-- Modelled from the spec: `BKTree::insert` — if the tree is empty the word
becomes the root's word, otherwise the root node's insert walk runs. -/
def insert : BKTree → List Char → BKTree
  | none, w => some (.node w [])
  | some r, w => some (r.insert w)

/-- Modelled from the spec: `BKTree::find` — bounded search from the root;
an empty tree yields no results. -/
def find : BKTree → List Char → Nat → List (List Char)
  | none, _, _ => []
  | some r, q, t => BKTreeNode.find q t r

/-- A BK-tree built by a sequence of insert calls starting from the empty
container. -/
def build (ws : List (List Char)) : BKTree :=
  ws.foldl insert (none : BKTree)

end BKTree

/-- `std::tolower` in the default "C" locale on a byte: `A..Z` map to
`a..z`, everything else is unchanged. -/
def tolowerC (c : Char) : Char :=
  if 'A' ≤ c ∧ c ≤ 'Z' then Char.ofNat (c.toNat + 32) else c

/-- `std::isalpha` in the default "C" locale on a byte: true exactly on
ASCII letters. -/
def isalphaC (c : Char) : Bool :=
  decide ('a' ≤ c ∧ c ≤ 'z') || decide ('A' ≤ c ∧ c ≤ 'Z')

/-- The slot index `std::tolower(c) - 'a'` used by `TrieNode::hasChild`,
`TrieNode::getChild` and `TrieNode::createChild` to address the 26-slot
children array. -/
def slotIndex (c : Char) : Int :=
  ((tolowerC c).toNat : Int) - ('a'.toNat : Int)

/-- A character the 26-slot array can address: a lowercase English letter. -/
def validChar (c : Char) : Prop :=
  'a' ≤ c ∧ c ≤ 'z'

instance (c : Char) : Decidable (validChar c) := by
  unfold validChar
  infer_instance

/-- A word whose characters are all lowercase English letters. -/
def validWord (w : List Char) : Prop :=
  ∀ c ∈ w, validChar c

/-- `p` is an initial segment of `w`. -/
def isPrefixW (p w : List Char) : Prop :=
  ∃ r, p ++ r = w

instance (w : List Char) : Decidable (validWord w) := by
  unfold validWord
  infer_instance

/-- Trie node (`trie_node.h`): end-of-word flag and the 26-slot children
array, modelled as a total function from the (signed) slot index; the source
reads `children[tolower(c) - 'a']`, defined only for indices `0..25`. -/
inductive TrieNode where
  | mk (is_end_of_word : Bool) (children : Int → Option TrieNode)

namespace TrieNode

/-- `TrieNode::isEndOfWord`. -/
def isEndOfWord : TrieNode → Bool
  | .mk e _ => e

/-- The child stored at the slot addressed by a character
(`TrieNode::getChild`, also the test of `TrieNode::hasChild`). -/
def getChild : TrieNode → Char → Option TrieNode
  | .mk _ cf, c => cf (slotIndex c)

end TrieNode

/-- A freshly constructed `TrieNode`: not end of word, no children. -/
def emptyTrieNode : TrieNode := .mk false (fun _ => none)

namespace Trie

/-- Embedding of `Trie::insert`: walk the word, creating each missing child
(`createChild`), and mark the final node as end-of-word. -/
def insert : TrieNode → List Char → TrieNode
  | .mk _ cf, [] => .mk true cf
  | .mk e cf, c :: rest =>
      let child := match cf (slotIndex c) with
        | some t => t
        | none => emptyTrieNode
      .mk e (fun i => if i = slotIndex c then some (insert child rest) else cf i)

/-- Embedding of `Trie::search`: walk the word; false at a missing child,
otherwise the final node's end-of-word flag. -/
def search : TrieNode → List Char → Bool
  | .mk e _, [] => e
  | .mk _ cf, c :: rest =>
      match cf (slotIndex c) with
      | none => false
      | some t => search t rest

/-- Embedding of `Trie::startsWith`: walk the prefix; false at a missing
child, true when the prefix is exhausted. -/
def startsWith : TrieNode → List Char → Bool
  | .mk _ _, [] => true
  | .mk _ cf, c :: rest =>
      match cf (slotIndex c) with
      | none => false
      | some t => startsWith t rest

/-- The walk of `Trie::getValidEndings` along the remaining text, with `i`
the index of the next character: stop at the first missing child; after
descending for `text[i]`, record `i + 1` when the node is end-of-word. -/
def validEndingsFrom : TrieNode → List Char → Nat → List Nat
  | _, [], _ => []
  | .mk _ cf, c :: rest, i =>
      match cf (slotIndex c) with
      | none => []
      | some t =>
          (if t.isEndOfWord then [i + 1] else []) ++ validEndingsFrom t rest (i + 1)

/-- Embedding of `Trie::getValidEndings` from a starting position. -/
def getValidEndings (root : TrieNode) (text : List Char) (startPos : Nat) : List Nat :=
  validEndingsFrom root (text.drop startPos) startPos

/-- The characters tried by the wildcard loops `for(char c = 'a'; c <= 'z'; c++)`. -/
def azChars : List Char :=
  (List.range 26).map (fun k => Char.ofNat ('a'.toNat + k))

/-- Embedding of `Trie::matchPattern` (recursion on the pattern suffix, the
source's `index` argument): at the end of the pattern, match only on an
end-of-word node; on `*` try every present child in alphabetical order; on a
literal, short-circuit false unless `isalpha`, then descend. -/
def matchPattern : TrieNode → List Char → Bool
  | .mk e _, [] => e
  | .mk _ cf, ch :: rest =>
      if ch = '*' then
        azChars.any fun c =>
          match cf (slotIndex c) with
          | none => false
          | some t => matchPattern t rest
      else if ¬ isalphaC ch then false
      else
        match cf (slotIndex ch) with
        | none => false
        | some t => matchPattern t rest

/-- Embedding of `Trie::collectMatches` (recursion on the pattern suffix with
the accumulated word `current`): results are produced in left-to-right DFS
order, appending `current` at end-of-pattern on end-of-word nodes. -/
def collectMatches : TrieNode → List Char → List Char → List (List Char)
  | .mk e _, [], current => if e then [current] else []
  | .mk _ cf, ch :: rest, current =>
      if ch = '*' then
        azChars.flatMap fun c =>
          match cf (slotIndex c) with
          | none => []
          | some t => collectMatches t rest (current ++ [c])
      else if ¬ isalphaC ch then []
      else
        match cf (slotIndex ch) with
        | none => []
        | some t => collectMatches t rest (current ++ [ch])

/-- A Trie built by inserting a list of words into a fresh root. -/
def build (ws : List (List Char)) : TrieNode :=
  ws.foldl insert emptyTrieNode

end Trie

namespace TreeBuilder

/-- Embedding of `TreeBuilder::transformString`: drop `\n` and `\r`,
downcase `A..Z`, keep everything else. -/
def transformString (s : List Char) : List Char :=
  s.filterMap fun c =>
    if c = '\n' ∨ c = '\r' then none
    else if 'A' ≤ c ∧ c ≤ 'Z' then some (Char.ofNat (c.toNat + 32))
    else some c

/-- Embedding of `TreeBuilder::isValidString`: true iff every character is a
lowercase English letter. -/
def isValidString (s : List Char) : Bool :=
  s.all fun c => decide ('a' ≤ c) && decide (c ≤ 'z')

/-- The per-line pipeline of `TreeBuilder::readWordlist`: transform each
line, keep those accepted by the filter, in file order. -/
def readWordlist (lines : List (List Char)) : List (List Char) :=
  (lines.map transformString).filter isValidString

/-- The Trie built by `TreeBuilder::buildTrie` from the retained word list. -/
def buildTrie (lines : List (List Char)) : TrieNode :=
  Trie.build (readWordlist lines)

end TreeBuilder

/-! ### Loop-invariant infrastructure for the edit-distance kernel -/

/-- Invariant propagation through a `foldl` over `List.range' s n`. -/
theorem foldl_range'_inv {σ : Type} (f : σ → Nat → σ) (P : Nat → σ → Prop) :
    ∀ (n s : Nat) (init : σ), P s init →
      (∀ i st, s ≤ i → i < s + n → P i st → P (i + 1) (f st i)) →
      P (s + n) ((List.range' s n).foldl f init) := by
  intro n
  induction n with
  | zero => intro s init h0 _; simpa using h0
  | succ m ih =>
      intro s init h0 hstep
      rw [List.range'_succ]
      have h1 : P (s + 1) (f init s) := hstep s init le_rfl (by omega) h0
      have := ih (s + 1) (f init s) h1 (fun i st hi hi' hP => hstep i st (by omega) (by omega) hP)
      simpa [Nat.add_assoc, Nat.add_comm, Nat.add_left_comm] using this

namespace EditDistance

theorem upd_same (d : Nat → Nat → Int) (i j : Nat) (v : Int) : upd d i j v i j = v := by
  simp [upd]

theorem upd_ne (d : Nat → Nat → Int) (i j : Nat) (v : Int) (x y : Nat)
    (h : ¬(x = i ∧ y = j)) : upd d i j v x y = d x y := by
  simp only [upd, if_neg h]

theorem upd_nonneg {d : Nat → Nat → Int} {i j : Nat} {v : Int}
    (hv : 0 ≤ v) (hd : ∀ x y, 0 ≤ d x y) : ∀ x y, 0 ≤ upd d i j v x y := by
  intro x y
  unfold upd
  split
  · exact hv
  · exact hd x y

theorem borders_nonneg (a b : List Char) : ∀ x y, 0 ≤ borders a b x y := by
  unfold borders
  refine foldl_range'_inv _ (fun _ (d : Nat → Nat → Int) => ∀ x y, 0 ≤ d x y) _ _ _ ?_ ?_
  · refine foldl_range'_inv _ (fun _ (d : Nat → Nat → Int) => ∀ x y, 0 ≤ d x y) _ _ _ ?_ ?_
    · exact upd_nonneg (by positivity) (fun _ _ => le_refl 0)
    · intro i st hi _ hst
      exact upd_nonneg (by omega) (upd_nonneg (by positivity) hst)
  · intro j st hj _ hst
    exact upd_nonneg (by omega) (upd_nonneg (by positivity) hst)

theorem borders_one_one (a b : List Char) : borders a b 1 1 = 0 := by
  unfold borders
  have h := foldl_range'_inv
    (f := fun d j => upd (upd d 0 j ((a.length : Int) + (b.length : Int))) 1 j ((j : Int) - 1))
    (P := fun j d => 2 ≤ j → d 1 1 = 0) (b.length + 1) 1
  simp only at h
  refine (h _ (by omega) ?_) (by omega)
  intro j st hj _ hst
  intro _
  rcases Nat.lt_or_ge j 2 with hj2 | hj2
  · have hj1 : j = 1 := by omega
    subst hj1
    rw [upd_same]
    norm_num
  · rw [upd_ne _ _ _ _ _ _ (by omega), upd_ne _ _ _ _ _ _ (by omega)]
    exact hst hj2

/-- Every cell of the work matrix stays non-negative through a row, and `db`
stays below the next column index. -/
theorem cellStep_inv (a b : List Char) (da : Int → Nat) (i : Nat)
    (hda : ∀ idx, da idx < i) (j : Nat) (_hj : 1 ≤ j) (st : Nat × (Nat → Nat → Int))
    (h : st.1 < j ∧ ∀ x y, 0 ≤ st.2 x y) :
    (cellStep a b da i st j).1 < j + 1 ∧ ∀ x y, 0 ≤ (cellStep a b da i st j).2 x y := by
  obtain ⟨hdb, hd⟩ := h
  unfold cellStep
  constructor
  · dsimp only
    split
    · omega
    · omega
  · dsimp only
    apply upd_nonneg _ hd
    have hk := hda (charToIndex (b.getD (j - 1) 'a'))
    have h1 : (0 : Int) ≤ st.2 i j + if a.getD (i - 1) 'a' = b.getD (j - 1) 'a'
        ∨ a.getD (i - 1) 'a' = '*' ∨ b.getD (j - 1) 'a' = '*' then 0 else 1 := by
      have := hd i j
      split <;> omega
    have h2 : (0 : Int) ≤ st.2 (i + 1) j + 1 := by have := hd (i + 1) j; omega
    have h3 : (0 : Int) ≤ st.2 i (j + 1) + 1 := by have := hd i (j + 1); omega
    have h4 : (0 : Int) ≤ st.2 (da (charToIndex (b.getD (j - 1) 'a'))) st.1 +
        ((i : Int) - (da (charToIndex (b.getD (j - 1) 'a')) : Int) - 1) + 1 +
        ((j : Int) - (st.1 : Int) - 1) := by
      have := hd (da (charToIndex (b.getD (j - 1) 'a'))) st.1
      omega
    exact le_min (le_min h1 h2) (le_min h3 h4)

/-- Row invariant: `da` entries stay below the next row index and the matrix
stays non-negative. -/
theorem rowStep_inv (a b : List Char) (i : Nat) (_hi : 1 ≤ i)
    (st : (Int → Nat) × (Nat → Nat → Int))
    (h : (∀ idx, st.1 idx < i) ∧ ∀ x y, 0 ≤ st.2 x y) :
    (∀ idx, (rowStep a b st i).1 idx < i + 1) ∧
      ∀ x y, 0 ≤ (rowStep a b st i).2 x y := by
  obtain ⟨hda, hd⟩ := h
  have hinner := foldl_range'_inv (cellStep a b st.1 i)
      (fun j (q : Nat × (Nat → Nat → Int)) => q.1 < j ∧ ∀ x y, 0 ≤ q.2 x y)
      b.length 1 (0, st.2) ⟨by omega, hd⟩
      (fun j q hj _ hq => cellStep_inv a b st.1 i hda j hj q hq)
  constructor
  · intro idx
    unfold rowStep
    dsimp only
    split
    · omega
    · exact Nat.lt_succ_of_lt (hda idx)
  · exact hinner.2

/-- The value returned by `EditDistance::editDistance` is non-negative: the
signed/unsigned comparisons in `BKTreeNode::find` therefore behave as plain
integer comparisons. -/
theorem editDistance_nonneg (a b : List Char) : 0 ≤ editDistance a b := by
  unfold editDistance
  have h := foldl_range'_inv (rowStep a b)
      (fun i (st : (Int → Nat) × (Nat → Nat → Int)) =>
        (∀ idx, st.1 idx < i) ∧ ∀ x y, 0 ≤ st.2 x y)
      a.length 1 ((fun _ => 0), borders a b)
      ⟨fun _ => by simp, borders_nonneg a b⟩
      (fun i st hi _ hst => rowStep_inv a b i hi st hst)
  exact h.2 (a.length + 1) (b.length + 1)

end EditDistance

namespace EditDistance

/-- Diagonal invariant for `editDistance a a`: along the matrix diagonal the
substitution cost is zero, so every processed diagonal cell is at most `0`. -/
theorem cellStep_diag (a : List Char) (da : Int → Nat) (i : Nat) (hi : 1 ≤ i)
    (j : Nat) (hj : 1 ≤ j) (st : Nat × (Nat → Nat → Int))
    (h : (∀ m, m < i → st.2 (m + 1) (m + 1) ≤ 0) ∧ (i < j → st.2 (i + 1) (i + 1) ≤ 0)) :
    (∀ m, m < i → (cellStep a a da i st j).2 (m + 1) (m + 1) ≤ 0) ∧
      (i < j + 1 → (cellStep a a da i st j).2 (i + 1) (i + 1) ≤ 0) := by
  obtain ⟨hdiag, hcur⟩ := h
  constructor
  · intro m hm
    unfold cellStep
    dsimp only
    rw [upd_ne _ _ _ _ _ _ (by omega)]
    exact hdiag m hm
  · intro hij
    rcases Nat.lt_or_ge i j with hlt | hge
    · unfold cellStep
      dsimp only
      rw [upd_ne _ _ _ _ _ _ (by omega)]
      exact hcur hlt
    · have hij' : i = j := by omega
      subst hij'
      unfold cellStep
      dsimp only
      rw [upd_same]
      have hcost : (if a.getD (i - 1) 'a' = a.getD (i - 1) 'a'
          ∨ a.getD (i - 1) 'a' = '*' ∨ a.getD (i - 1) 'a' = '*' then (0 : Int) else 1) = 0 := by
        simp
      have hdm : st.2 i i ≤ 0 := by
        have := hdiag (i - 1) (by omega)
        have heq : i - 1 + 1 = i := by omega
        rwa [heq] at this
      calc min (min (st.2 i i + if a.getD (i - 1) 'a' = a.getD (i - 1) 'a'
              ∨ a.getD (i - 1) 'a' = '*' ∨ a.getD (i - 1) 'a' = '*' then (0 : Int) else 1)
              (st.2 (i + 1) i + 1))
            (min (st.2 i (i + 1) + 1)
              (st.2 (da (charToIndex (a.getD (i - 1) 'a'))) st.1 +
                ((i : Int) - (da (charToIndex (a.getD (i - 1) 'a')) : Int) - 1) + 1 +
                ((i : Int) - (st.1 : Int) - 1)))
          ≤ st.2 i i + if a.getD (i - 1) 'a' = a.getD (i - 1) 'a'
              ∨ a.getD (i - 1) 'a' = '*' ∨ a.getD (i - 1) 'a' = '*' then (0 : Int) else 1 :=
            le_trans (min_le_left _ _) (min_le_left _ _)
        _ ≤ 0 := by rw [hcost]; omega

/-- Row version of the diagonal invariant. -/
theorem rowStep_diag (a : List Char) (i : Nat) (hi : 1 ≤ i) (hik : i ≤ a.length)
    (st : (Int → Nat) × (Nat → Nat → Int))
    (h : ∀ m, m < i → st.2 (m + 1) (m + 1) ≤ 0) :
    ∀ m, m < i + 1 → (rowStep a a st i).2 (m + 1) (m + 1) ≤ 0 := by
  have hinner := foldl_range'_inv (cellStep a a st.1 i)
      (fun j (q : Nat × (Nat → Nat → Int)) =>
        (∀ m, m < i → q.2 (m + 1) (m + 1) ≤ 0) ∧ (i < j → q.2 (i + 1) (i + 1) ≤ 0))
      a.length 1 (0, st.2) ⟨h, by omega⟩
      (fun j q hj _ hq => cellStep_diag a st.1 i hi j hj q hq)
  intro m hm
  rcases Nat.lt_or_ge m i with hmi | hmi
  · exact hinner.1 m hmi
  · have hmi' : m = i := by omega
    subst hmi'
    exact hinner.2 (by omega)

/-- `editDistance(a, a) = 0` for every string `a`: the walk of
`BKTreeNode::insert` and `BKTreeNode::find` recognises the node holding an
identical word. -/
theorem editDistance_self (a : List Char) : editDistance a a = 0 := by
  refine le_antisymm ?_ (editDistance_nonneg a a)
  unfold editDistance
  have h := foldl_range'_inv (rowStep a a)
      (fun i (st : (Int → Nat) × (Nat → Nat → Int)) =>
        ∀ m, m < i → st.2 (m + 1) (m + 1) ≤ 0)
      a.length 1 ((fun _ => 0), borders a a)
      (by
        intro m hm
        have hm0 : m = 0 := by omega
        subst hm0
        simpa using le_of_eq (borders_one_one a a))
      (fun i st hi hi' hst => rowStep_diag a i hi (by omega) st hst)
  exact h a.length (by omega)

end EditDistance

namespace BKTreeNode

/-- Structural induction principle for the nested inductive `BKTreeNode`. -/
theorem inductionOn (P : BKTreeNode → Prop)
    (h : ∀ w cs, (∀ d c, (d, c) ∈ cs → P c) → P (.node w cs)) : ∀ t, P t := by
  intro t
  have aux : ∀ n (t : BKTreeNode), sizeOf t ≤ n → P t := by
    intro n
    induction n with
    | zero => intro t ht; cases t with | node w cs => simp at ht
    | succ m ih =>
        intro t ht
        cases t with
        | node w cs =>
            apply h
            intro d c hmem
            apply ih
            have h1 : sizeOf (d, c) < sizeOf cs := List.sizeOf_lt_of_mem hmem
            simp at h1 ht ⊢
            omega
  exact aux (sizeOf t) t le_rfl

theorem sizeL_insertInto (w : List Char) (d : Int) :
    ∀ cs, (∀ k c, (k, c) ∈ cs → size (c.insert w) = size c + 1) →
      sizeL (insertInto cs d w) = sizeL cs + 1 := by
  intro cs
  induction cs with
  | nil => intro _; simp [insertInto, sizeL, size]
  | cons p rest ih =>
      intro hrec
      obtain ⟨k, c⟩ := p
      by_cases hk : k = d
      · simp only [insertInto, if_pos hk, sizeL]
        rw [hrec k c (by simp)]
        omega
      · simp only [insertInto, if_neg hk, sizeL]
        rw [ih (fun k' c' hm => hrec k' c' (by simp [hm]))]
        omega

/-- Every call of `BKTreeNode::insert` adds exactly one node to the tree:
the walk always ends by attaching a fresh leaf, never as a no-op. -/
theorem size_insert : ∀ t w, size (t.insert w) = size t + 1 := by
  intro t
  induction t using inductionOn with
  | h w' cs hrec =>
      intro w
      simp only [insert, size]
      rw [sizeL_insertInto w _ cs (fun k c hm => hrec k c hm w)]

theorem mem_findL_insertInto (w : List Char) (d lo hi : Int) (hlo : lo ≤ d) (hhi : d ≤ hi) :
    ∀ cs, (∀ k c, (k, c) ∈ cs → w ∈ find w 0 (c.insert w)) →
      w ∈ findL w 0 lo hi (insertInto cs d w) := by
  intro cs
  induction cs with
  | nil =>
      intro _
      simp only [insertInto, findL, if_pos (And.intro hlo hhi)]
      simp [find, EditDistance.editDistance_self]
  | cons p rest ih =>
      intro hrec
      obtain ⟨k, c⟩ := p
      by_cases hk : k = d
      · subst hk
        simp only [insertInto, if_pos rfl, findL, if_pos (And.intro hlo hhi)]
        exact List.mem_append_left _ (hrec k c (by simp))
      · simp only [insertInto, if_neg hk, findL]
        exact List.mem_append_right _ (ih (fun k' c' hm => hrec k' c' (by simp [hm])))

/-- After inserting `w`, a zero-tolerance search for `w` finds it. -/
theorem mem_find_insert_self : ∀ (t : BKTreeNode) (w : List Char), w ∈ find w 0 (t.insert w) := by
  intro t
  induction t using inductionOn with
  | h w' cs hrec =>
      intro w
      simp only [insert, find]
      refine List.mem_append_right _ ?_
      exact mem_findL_insertInto w _ _ _ (by simp) (by simp) cs
        (fun k c hm => hrec k c hm w)

theorem mem_findL_insertInto_mono (q v : List Char) (t : Nat) (lo hi d : Int) :
    ∀ cs, (∀ k c, (k, c) ∈ cs → ∀ x, x ∈ find q t c → x ∈ find q t (c.insert v)) →
      ∀ x, x ∈ findL q t lo hi cs → x ∈ findL q t lo hi (insertInto cs d v) := by
  intro cs
  induction cs with
  | nil => intro _ x hx; simp [findL] at hx
  | cons p rest ih =>
      intro hrec x hx
      obtain ⟨k, c⟩ := p
      simp only [findL] at hx
      rcases List.mem_append.mp hx with hx1 | hx2
      · by_cases hk : k = d
        · simp only [insertInto, if_pos hk, findL]
          refine List.mem_append_left _ ?_
          by_cases hr : lo ≤ k ∧ k ≤ hi
          · rw [if_pos hr] at hx1 ⊢
            exact hrec k c (by simp) x hx1
          · rw [if_neg hr] at hx1
            simp at hx1
        · simp only [insertInto, if_neg hk, findL]
          exact List.mem_append_left _ hx1
      · by_cases hk : k = d
        · simp only [insertInto, if_pos hk, findL]
          exact List.mem_append_right _ hx2
        · simp only [insertInto, if_neg hk, findL]
          exact List.mem_append_right _ (ih (fun k' c' hm => hrec k' c' (by simp [hm])) x hx2)

/-- `BKTreeNode::insert` never removes search results. -/
theorem mem_find_insert_mono : ∀ n q t v x, x ∈ find q t n → x ∈ find q t (n.insert v) := by
  intro n
  induction n using inductionOn with
  | h w' cs hrec =>
      intro q t v x hx
      simp only [find] at hx
      simp only [insert, find]
      rcases List.mem_append.mp hx with hx1 | hx2
      · exact List.mem_append_left _ hx1
      · refine List.mem_append_right _ ?_
        exact mem_findL_insertInto_mono q v t _ _ _ cs
          (fun k c hm x' hx' => hrec k c hm q t v x' hx') x hx2

end BKTreeNode

namespace BKTree

theorem find_insert_mono (o : BKTree) (v x q : List Char) (t : Nat)
    (hx : x ∈ find o q t) : x ∈ find (insert o v) q t := by
  cases o with
  | none => simp [find] at hx
  | some r => exact BKTreeNode.mem_find_insert_mono r q t v x hx

theorem fold_find_mono : ∀ (ws : List (List Char)) (o : BKTree) (x q : List Char) (t : Nat),
    x ∈ find o q t → x ∈ find (ws.foldl insert o) q t := by
  intro ws
  induction ws with
  | nil => intro o x q t hx; simpa using hx
  | cons v rest ih =>
      intro o x q t hx
      exact ih (insert o v) x q t (find_insert_mono o v x q t hx)

theorem fold_find_self : ∀ (ws : List (List Char)) (o : BKTree) (w : List Char),
    w ∈ ws → w ∈ find (ws.foldl insert o) w 0 := by
  intro ws
  induction ws with
  | nil => intro o w hw; simp at hw
  | cons v rest ih =>
      intro o w hw
      rcases List.mem_cons.mp hw with hw1 | hw2
      · subst hw1
        refine fold_find_mono rest (insert o w) w w 0 ?_
        cases o with
        | none =>
            simp [insert, find, BKTreeNode.find, BKTreeNode.findL,
              EditDistance.editDistance_self]
        | some r => exact BKTreeNode.mem_find_insert_self r w
      · exact ih (insert o v) w hw2

end BKTree

namespace BKTreeNode

theorem insertInto_eq_lookup : ∀ (cs : List (Int × BKTreeNode)) (d : Int) (w : List Char),
    insertInto cs d w =
      match lookupA cs d with
      | none => cs ++ [(d, .node w [])]
      | some c => assignA cs d (c.insert w) := by
  intro cs
  induction cs with
  | nil => intro d w; simp [insertInto, lookupA]
  | cons p rest ih =>
      intro d w
      obtain ⟨k, c⟩ := p
      by_cases hk : k = d
      · simp [insertInto, lookupA, assignA, if_pos hk]
      · simp only [insertInto, lookupA, assignA, if_neg hk, ih]
        cases lookupA rest d <;> simp [assignA, if_neg hk]

theorem lookupA_height : ∀ (cs : List (Int × BKTreeNode)) (d : Int) (c : BKTreeNode),
    lookupA cs d = some c → height c ≤ heightL cs := by
  intro cs
  induction cs with
  | nil => intro d c h; simp [lookupA] at h
  | cons p rest ih =>
      intro d c h
      obtain ⟨k, c0⟩ := p
      by_cases hk : k = d
      · rw [lookupA, if_pos hk] at h
        cases h
        simp [heightL]
      · rw [lookupA, if_neg hk] at h
        have := ih d c h
        simp only [heightL]
        omega

/-- With fuel exceeding the height, the step-indexed loop returns exactly the
result of `BKTreeNode::insert`: each iteration descends one level, so the
loop always terminates. -/
theorem insertLoop_insert : ∀ (f : Nat) (t : BKTreeNode) (w : List Char),
    height t < f → insertLoop f t w = some (t.insert w) := by
  intro f
  induction f with
  | zero => intro t w h; omega
  | succ m ih =>
      intro t w h
      cases t with
      | node w' cs =>
          rw [insertLoop, insert, insertInto_eq_lookup]
          cases hlk : lookupA cs (EditDistance.editDistance w w') with
          | none => simp
          | some c =>
              have hc : height c ≤ heightL cs := lookupA_height cs _ c hlk
              have hh : height (BKTreeNode.node w' cs) = heightL cs + 1 := by
                simp [height]
              dsimp only
              rw [ih c w (by omega)]
              simp

end BKTreeNode

/-! ### Character and slot-index facts for the Trie -/

theorem charToNat_le_of_le {c d : Char} (h : c ≤ d) : c.toNat ≤ d.toNat :=
  Char.le_def.mp h

theorem charEq_of_toNat_eq {c d : Char} (h : c.toNat = d.toNat) : c = d :=
  Char.eq_of_val_eq (UInt32.eq_of_toBitVec_eq (BitVec.toNat_injective h))

theorem validChar_toNat {c : Char} (h : validChar c) : 97 ≤ c.toNat ∧ c.toNat ≤ 122 := by
  obtain ⟨h1, h2⟩ := h
  have e1 := charToNat_le_of_le h1
  have e2 := charToNat_le_of_le h2
  have ea : Char.toNat 'a' = 97 := rfl
  have ez : Char.toNat 'z' = 122 := rfl
  omega

theorem tolowerC_valid {c : Char} (h : validChar c) : tolowerC c = c := by
  have hn := validChar_toNat h
  unfold tolowerC
  rw [if_neg]
  rintro ⟨_, hZ⟩
  have e2 := charToNat_le_of_le hZ
  have ez : Char.toNat 'Z' = 90 := rfl
  omega

theorem slotIndex_valid {c : Char} (h : validChar c) :
    slotIndex c = (c.toNat : Int) - 97 := by
  unfold slotIndex
  rw [tolowerC_valid h]
  have e : ((Char.toNat 'a' : Nat) : Int) = 97 := by decide
  rw [e]

theorem slotIndex_inj {b a : Char} (hb : validChar b) (ha : validChar a)
    (h : slotIndex b = slotIndex a) : b = a := by
  rw [slotIndex_valid hb, slotIndex_valid ha] at h
  exact charEq_of_toNat_eq (by omega)

/-! ### Trie search and prefix correctness -/

theorem search_empty : ∀ w : List Char, Trie.search emptyTrieNode w = false := by
  intro w
  cases w with
  | nil => rfl
  | cons c rest => rfl

theorem search_insert : ∀ (v : List Char) (T : TrieNode) (w : List Char),
    validWord v → validWord w →
    (Trie.search (Trie.insert T v) w = true ↔ w = v ∨ Trie.search T w = true) := by
  intro v
  induction v with
  | nil =>
      intro T w _ _
      cases T with
      | mk e cf =>
          cases w with
          | nil => simp [Trie.insert, Trie.search]
          | cons b w' => simp [Trie.insert, Trie.search]
  | cons a v' ih =>
      intro T w hv hw
      have hva : validChar a := hv a (List.mem_cons_self a v')
      have hvv' : validWord v' := fun c hc => hv c (List.mem_cons_of_mem a hc)
      cases T with
      | mk e cf =>
          cases w with
          | nil => simp [Trie.insert, Trie.search]
          | cons b w' =>
              have hwb : validChar b := hw b (List.mem_cons_self b w')
              have hww' : validWord w' := fun c hc => hw c (List.mem_cons_of_mem b hc)
              by_cases hslot : slotIndex b = slotIndex a
              · have hba : b = a := slotIndex_inj hwb hva hslot
                subst hba
                cases hcf : cf (slotIndex b) with
                | some t => simp [Trie.insert, Trie.search, hcf, ih t w' hvv' hww']
                | none =>
                    simp [Trie.insert, Trie.search, hcf, ih emptyTrieNode w' hvv' hww',
                      search_empty]
              · have hbna : b ≠ a := fun hcl => hslot (by rw [hcl])
                simp only [Trie.insert, Trie.search, if_neg hslot]
                cases hcf : cf (slotIndex b) <;> simp [hbna]

theorem startsWith_empty_cons (c : Char) (p : List Char) :
    Trie.startsWith emptyTrieNode (c :: p) = false := rfl

theorem startsWith_nil (T : TrieNode) : Trie.startsWith T [] = true := by
  cases T
  rfl

theorem startsWith_insert : ∀ (v : List Char) (T : TrieNode) (p : List Char),
    validWord v → validWord p →
    (Trie.startsWith (Trie.insert T v) p = true ↔
      isPrefixW p v ∨ Trie.startsWith T p = true) := by
  intro v
  induction v with
  | nil =>
      intro T p _ _
      cases T with
      | mk e cf =>
          cases p with
          | nil => simp [Trie.insert, Trie.startsWith, isPrefixW]
          | cons b p' =>
              simp only [Trie.insert, Trie.startsWith]
              cases hcf : cf (slotIndex b) <;> simp [isPrefixW]
  | cons a v' ih =>
      intro T p hv hp
      have hva : validChar a := hv a (List.mem_cons_self a v')
      have hvv' : validWord v' := fun c hc => hv c (List.mem_cons_of_mem a hc)
      cases T with
      | mk e cf =>
          cases p with
          | nil => simp [Trie.insert, Trie.startsWith, isPrefixW]
          | cons b p' =>
              have hpb : validChar b := hp b (List.mem_cons_self b p')
              have hpp' : validWord p' := fun c hc => hp c (List.mem_cons_of_mem b hc)
              by_cases hslot : slotIndex b = slotIndex a
              · have hba : b = a := slotIndex_inj hpb hva hslot
                subst hba
                cases hcf : cf (slotIndex b) with
                | some t =>
                    simp [Trie.insert, Trie.startsWith, hcf, ih t p' hvv' hpp',
                      isPrefixW]
                | none =>
                    cases p' with
                    | nil =>
                        simp [Trie.insert, Trie.startsWith, hcf, isPrefixW,
                          startsWith_nil]
                    | cons c p'' =>
                        have h0 : validWord (c :: p'') := hpp'
                        simp [Trie.insert, Trie.startsWith, hcf,
                          ih emptyTrieNode (c :: p'') hvv' h0,
                          startsWith_empty_cons, isPrefixW]
              · have hbna : b ≠ a := fun hcl => hslot (by rw [hcl])
                simp only [Trie.insert, Trie.startsWith, if_neg hslot]
                cases hcf : cf (slotIndex b) <;> simp [isPrefixW, hbna]

theorem search_build : ∀ (ws : List (List Char)) (T : TrieNode) (w : List Char),
    (∀ u ∈ ws, validWord u) → validWord w →
    (Trie.search (ws.foldl Trie.insert T) w = true ↔ w ∈ ws ∨ Trie.search T w = true) := by
  intro ws
  induction ws with
  | nil => intro T w _ _; simp
  | cons v rest ih =>
      intro T w hws hw
      have hv : validWord v := hws v (by simp)
      have hrest : ∀ u ∈ rest, validWord u := fun u hu => hws u (by simp [hu])
      simp only [List.foldl_cons]
      rw [ih (Trie.insert T v) w hrest hw, search_insert v T w hv hw]
      simp only [List.mem_cons]
      tauto

theorem startsWith_build : ∀ (ws : List (List Char)) (T : TrieNode) (p : List Char),
    (∀ u ∈ ws, validWord u) → validWord p →
    (Trie.startsWith (ws.foldl Trie.insert T) p = true ↔
      (∃ v ∈ ws, isPrefixW p v) ∨ Trie.startsWith T p = true) := by
  intro ws
  induction ws with
  | nil => intro T p _ _; simp
  | cons v rest ih =>
      intro T p hws hp
      have hv : validWord v := hws v (by simp)
      have hrest : ∀ u ∈ rest, validWord u := fun u hu => hws u (by simp [hu])
      simp only [List.foldl_cons]
      rw [ih (Trie.insert T v) p hrest hp, startsWith_insert v T p hv hp]
      simp only [List.mem_cons]
      constructor
      · rintro (⟨u, hu, hpre⟩ | (hpre | hT))
        · exact Or.inl ⟨u, Or.inr hu, hpre⟩
        · exact Or.inl ⟨v, Or.inl rfl, hpre⟩
        · exact Or.inr hT
      · rintro (⟨u, (rfl | hu), hpre⟩ | hT)
        · exact Or.inr (Or.inl hpre)
        · exact Or.inl ⟨u, hu, hpre⟩
        · exact Or.inr (Or.inr hT)

theorem search_nil (T : TrieNode) : Trie.search T [] = T.isEndOfWord := by
  cases T
  rfl

theorem validEndingsFrom_mem : ∀ (l : List Char) (n : TrieNode) (i e : Nat),
    e ∈ Trie.validEndingsFrom n l i ↔
      ∃ m, 1 ≤ m ∧ m ≤ l.length ∧ e = i + m ∧ Trie.search n (l.take m) = true := by
  intro l
  induction l with
  | nil =>
      intro n i e
      simp only [Trie.validEndingsFrom, List.not_mem_nil, false_iff]
      rintro ⟨m, hm1, hm2, _, _⟩
      simp at hm2
      omega
  | cons c rest ih =>
      intro n i e
      cases n with
      | mk en cf =>
          cases hcf : cf (slotIndex c) with
          | none =>
              simp only [Trie.validEndingsFrom, hcf, List.not_mem_nil, false_iff]
              rintro ⟨m, hm1, _, _, hsearch⟩
              cases m with
              | zero => omega
              | succ m' =>
                  rw [List.take_succ_cons] at hsearch
                  simp [Trie.search, hcf] at hsearch
          | some t =>
              simp only [Trie.validEndingsFrom, hcf, List.mem_append]
              constructor
              · rintro (h1 | h2)
                · have hte : t.isEndOfWord = true ∧ e = i + 1 := by
                    by_cases ht : t.isEndOfWord = true
                    · simp [ht] at h1
                      exact ⟨ht, h1⟩
                    · simp [Bool.eq_false_iff.mpr ht] at h1
                  refine ⟨1, le_rfl, by simp, by omega, ?_⟩
                  rw [List.take_succ_cons, List.take_zero]
                  simp [Trie.search, hcf, search_nil, hte.1]
                · obtain ⟨m', hm1, hm2, hme, hsearch⟩ := (ih t (i + 1) e).mp h2
                  refine ⟨m' + 1, by omega, by simp; omega, by omega, ?_⟩
                  rw [List.take_succ_cons]
                  simp [Trie.search, hcf]
                  exact hsearch
              · rintro ⟨m, hm1, hm2, hme, hsearch⟩
                cases m with
                | zero => omega
                | succ m' =>
                    rw [List.take_succ_cons] at hsearch
                    simp only [Trie.search, hcf] at hsearch
                    cases m' with
                    | zero =>
                        left
                        rw [List.take_zero, search_nil] at hsearch
                        simp [hsearch]
                        omega
                    | succ m'' =>
                        right
                        refine (ih t (i + 1) e).mpr ⟨m'' + 1, by omega, by simp at hm2; omega,
                          by omega, hsearch⟩

theorem validEndingsFrom_gt : ∀ (l : List Char) (n : TrieNode) (i e : Nat),
    e ∈ Trie.validEndingsFrom n l i → i < e := by
  intro l
  induction l with
  | nil => intro n i e h; simp [Trie.validEndingsFrom] at h
  | cons c rest ih =>
      intro n i e h
      cases n with
      | mk en cf =>
          cases hcf : cf (slotIndex c) with
          | none => simp [Trie.validEndingsFrom, hcf] at h
          | some t =>
              simp only [Trie.validEndingsFrom, hcf, List.mem_append] at h
              rcases h with h1 | h2
              · by_cases ht : t.isEndOfWord = true
                · simp [ht] at h1
                  omega
                · simp [Bool.eq_false_iff.mpr ht] at h1
              · have := ih t (i + 1) e h2
                omega

theorem validEndingsFrom_sorted : ∀ (l : List Char) (n : TrieNode) (i : Nat),
    List.Sorted (· < ·) (Trie.validEndingsFrom n l i) := by
  intro l
  induction l with
  | nil => intro n i; simp [Trie.validEndingsFrom]
  | cons c rest ih =>
      intro n i
      cases n with
      | mk en cf =>
          cases hcf : cf (slotIndex c) with
          | none => simp [Trie.validEndingsFrom, hcf]
          | some t =>
              simp only [Trie.validEndingsFrom, hcf]
              unfold List.Sorted
              rw [List.pairwise_append]
              refine ⟨?_, ih t (i + 1), ?_⟩
              · by_cases ht : t.isEndOfWord = true <;> simp [ht]
              · intro x hx y hy
                have := validEndingsFrom_gt rest t (i + 1) y hy
                by_cases ht : t.isEndOfWord = true
                · simp [ht] at hx
                  omega
                · simp [Bool.eq_false_iff.mpr ht] at hx

theorem matchPattern_bad_literal : ∀ (pat : List Char) (T : TrieNode) (cur : List Char),
    (∃ c ∈ pat, c ≠ '*' ∧ isalphaC c = false) →
    Trie.matchPattern T pat = false ∧ Trie.collectMatches T pat cur = [] := by
  intro pat
  induction pat with
  | nil => intro T cur h; simp at h
  | cons ch rest ih =>
      intro T cur h
      cases T with
      | mk e cf =>
          by_cases hstar : ch = '*'
          · subst hstar
            have hbad : ∃ c ∈ rest, c ≠ '*' ∧ isalphaC c = false := by
              obtain ⟨c, hc, hne, hal⟩ := h
              rcases List.mem_cons.mp hc with rfl | hc'
              · exact absurd rfl hne
              · exact ⟨c, hc', hne, hal⟩
            constructor
            · have hred : Trie.matchPattern (TrieNode.mk e cf) ('*' :: rest) =
                  Trie.azChars.any fun c =>
                    match cf (slotIndex c) with
                    | none => false
                    | some t => Trie.matchPattern t rest := by
                simp [Trie.matchPattern]
              rw [hred, List.any_eq_false]
              intro c _
              cases hcf : cf (slotIndex c) with
              | none => simp
              | some t => simp [(ih t cur hbad).1]
            · have hred : Trie.collectMatches (TrieNode.mk e cf) ('*' :: rest) cur =
                  Trie.azChars.flatMap fun c =>
                    match cf (slotIndex c) with
                    | none => []
                    | some t => Trie.collectMatches t rest (cur ++ [c]) := by
                simp [Trie.collectMatches]
              rw [hred, List.flatMap_eq_nil_iff]
              intro c _
              cases hcf : cf (slotIndex c) with
              | none => simp
              | some t => simp [(ih t (cur ++ [c]) hbad).2]
          · by_cases halpha : isalphaC ch = true
            · have hbad : ∃ c ∈ rest, c ≠ '*' ∧ isalphaC c = false := by
                obtain ⟨c, hc, hne, hal⟩ := h
                rcases List.mem_cons.mp hc with rfl | hc'
                · rw [halpha] at hal
                  cases hal
                · exact ⟨c, hc', hne, hal⟩
              constructor
              · cases hcf : cf (slotIndex ch) with
                | none => simp [Trie.matchPattern, hstar, halpha, hcf]
                | some t =>
                    simp [Trie.matchPattern, hstar, halpha, hcf, (ih t cur hbad).1]
              · cases hcf : cf (slotIndex ch) with
                | none => simp [Trie.collectMatches, hstar, halpha, hcf]
                | some t =>
                    simp [Trie.collectMatches, hstar, halpha, hcf,
                      (ih t (cur ++ [ch]) hbad).2]
            · have halpha' : isalphaC ch = false := Bool.eq_false_iff.mpr halpha
              constructor
              · simp [Trie.matchPattern, hstar, halpha']
              · simp [Trie.collectMatches, hstar, halpha']

/-! ### Round-trip of the BK-tree binary codec -/

namespace BKTreeNode

theorem takeBytes_append (xs ys : List Nat) :
    takeBytes xs.length (xs ++ ys) = some (xs, ys) := by
  unfold takeBytes
  rw [if_pos (by simp)]
  simp

theorem le32_length (n : Nat) : (le32 n).length = 4 := rfl

theorem le16_length (n : Nat) : (le16 n).length = 2 := rfl

theorem fromLE_le32 (n : Nat) (h : n < 2 ^ 32) : fromLE (le32 n) = n := by
  simp only [fromLE, le32, List.foldr]
  omega

theorem fromLE_le16 (n : Nat) (h : n < 2 ^ 16) : fromLE (le16 n) = n := by
  simp only [fromLE, le16, List.foldr]
  omega

theorem map_bytes_id : ∀ w : List Char, (∀ c ∈ w, c.toNat < 256) →
    (w.map (fun c => c.toNat % 256)).map Char.ofNat = w := by
  intro w
  induction w with
  | nil => intro _; rfl
  | cons c rest ih =>
      intro h
      have hc : c.toNat < 256 := h c (by simp)
      simp only [List.map_cons, List.cons.injEq]
      refine ⟨?_, ih (fun x hx => h x (by simp [hx]))⟩
      rw [Nat.mod_eq_of_lt hc, Char.ofNat_toNat]

theorem assignA_not_mem (k : Int) (c : BKTreeNode) :
    ∀ acc : List (Int × BKTreeNode), k ∉ acc.map Prod.fst →
      assignA acc k c = acc ++ [(k, c)] := by
  intro acc
  induction acc with
  | nil => intro _; rfl
  | cons p rest ih =>
      intro h
      obtain ⟨k0, c0⟩ := p
      have hk0 : k0 ≠ k := by
        intro he
        exact h (by simp [he])
      simp only [assignA, if_neg hk0, List.cons_append, List.cons.injEq, true_and]
      exact ih (fun hm => h (by simp at hm ⊢; exact Or.inr hm))

theorem wfRangeL_mem : ∀ cs : List (Int × BKTreeNode), wfRangeL cs = true →
    ∀ k c, (k, c) ∈ cs → wfRange c = true := by
  intro cs
  induction cs with
  | nil => intro _ k c h; simp at h
  | cons p rest ih =>
      intro hwf k c h
      obtain ⟨k0, c0⟩ := p
      rw [wfRangeL, Bool.and_eq_true] at hwf
      rcases List.mem_cons.mp h with he | hm
      · cases he
        exact hwf.1
      · exact ih hwf.2 k c hm

theorem serializeL_length : ∀ (k : Int) (c : BKTreeNode) (rest : List (Int × BKTreeNode)),
    (serializeL ((k, c) :: rest)).length =
      2 + (serialize c).length + (serializeL rest).length := by
  intro k c rest
  simp [serializeL, le16]
  omega

theorem needFuelL_le : ∀ cs : List (Int × BKTreeNode),
    (∀ k c, (k, c) ∈ cs → needFuel c ≤ (serialize c).length) →
    needFuelL cs ≤ (serializeL cs).length + 1 := by
  intro cs
  induction cs with
  | nil => intro _; simp [needFuelL, serializeL]
  | cons p rest ih =>
      intro h
      obtain ⟨k, c⟩ := p
      have h1 : needFuel c ≤ (serialize c).length := h k c (by simp)
      have h2 : needFuelL rest ≤ (serializeL rest).length + 1 :=
        ih (fun k' c' hm => h k' c' (by simp [hm]))
      rw [needFuelL, serializeL_length]
      omega

theorem needFuel_le : ∀ n : BKTreeNode, needFuel n ≤ (serialize n).length := by
  intro n
  induction n using inductionOn with
  | h w cs hrec =>
      have hL : needFuelL cs ≤ (serializeL cs).length + 1 :=
        needFuelL_le cs (fun k c hm => hrec k c hm)
      rw [needFuel, serialize]
      simp only [List.length_append, le32_length, List.length_map]
      omega

end BKTreeNode

namespace BKTreeNode

theorem takeBytes_le16 (m : Nat) (ys : List Nat) :
    takeBytes 2 (le16 m ++ ys) = some (le16 m, ys) :=
  takeBytes_append (le16 m) ys

theorem takeBytes_le32 (m : Nat) (ys : List Nat) :
    takeBytes 4 (le32 m ++ ys) = some (le32 m, ys) :=
  takeBytes_append (le32 m) ys

theorem deserChildren_serializeL :
    ∀ cs : List (Int × BKTreeNode),
      (∀ k c, (k, c) ∈ cs → ∀ (f : Nat) (rest : List Nat), needFuel c ≤ f →
        deserNode f (serialize c ++ rest) = some (c, rest)) →
      (∀ k c, (k, c) ∈ cs → 0 ≤ k ∧ k < 65536) →
      (cs.map Prod.fst).Nodup →
      ∀ (f : Nat) (acc : List (Int × BKTreeNode)) (w : List Char) (rest : List Nat),
        needFuelL cs ≤ f →
        (∀ k, k ∈ cs.map Prod.fst → k ∉ acc.map Prod.fst) →
        deserChildren f cs.length acc w (serializeL cs ++ rest) =
          some (.node w (acc ++ cs), rest) := by
  intro cs
  induction cs with
  | nil =>
      intro _ _ _ f acc w rest hf _
      cases f with
      | zero => simp [needFuelL] at hf
      | succ g => simp [deserChildren, serializeL]
  | cons p rest' ih =>
      intro hrec hkey hnodup f acc w rest hf hdisj
      obtain ⟨k, c⟩ := p
      cases f with
      | zero => rw [needFuelL] at hf; omega
      | succ g =>
          have hg1 : needFuel c ≤ g := by rw [needFuelL] at hf; omega
          have hg2 : needFuelL rest' ≤ g := by rw [needFuelL] at hf; omega
          have hk := hkey k c (by simp)
          have hkey' : ((fromLE (le16 ((k % 65536).toNat)) : Nat) : Int) = k := by
            rw [Int.emod_eq_of_lt hk.1 hk.2]
            rw [fromLE_le16 k.toNat (by omega)]
            exact Int.toNat_of_nonneg hk.1
          have hmem : ((k, c) : Int × BKTreeNode) ∈ (k, c) :: rest' := by simp
          have hser : serializeL ((k, c) :: rest') ++ rest =
              le16 ((k % 65536).toNat) ++
                (serialize c ++ (serializeL rest' ++ rest)) := by
            simp [serializeL, List.append_assoc]
          have hlen : ((k, c) :: rest').length = rest'.length + 1 := rfl
          rw [hser, hlen, deserChildren]
          simp only [takeBytes_le16, Option.bind_eq_bind, Option.some_bind]
          rw [hrec k c hmem g _ hg1]
          simp only [Option.some_bind]
          rw [hkey']
          rw [assignA_not_mem k c acc (hdisj k (by simp))]
          rw [ih (fun k1 c1 hm => hrec k1 c1 (by simp [hm]))
            (fun k1 c1 hm => hkey k1 c1 (by simp [hm]))
            (by simp only [List.map_cons, List.nodup_cons] at hnodup; exact hnodup.2)
            g (acc ++ [(k, c)]) w rest hg2 ?_]
          · simp
          · intro k1 hk1
            simp only [List.map_append, List.mem_append]
            rintro (hin | hin)
            · exact hdisj k1 (by simp [hk1]) hin
            · simp only [List.map_cons, List.map_nil, List.mem_singleton] at hin
              subst hin
              simp only [List.map_cons, List.nodup_cons] at hnodup
              exact hnodup.1 hk1

theorem deserNode_serialize : ∀ n : BKTreeNode, wfRange n = true →
    ∀ (f : Nat) (rest : List Nat), needFuel n ≤ f →
      deserNode f (serialize n ++ rest) = some (n, rest) := by
  intro n
  induction n using inductionOn with
  | h w cs hrec =>
      intro hwf f rest hf
      rw [wfRange] at hwf
      simp only [Bool.and_eq_true, decide_eq_true_eq, List.all_eq_true] at hwf
      obtain ⟨⟨⟨⟨⟨hwl, hwchars⟩, hcl⟩, hnodup⟩, hkeys⟩, hwfL⟩ := hwf
      cases f with
      | zero => rw [needFuel] at hf; omega
      | succ g =>
          have hg : needFuelL cs ≤ g := by rw [needFuel] at hf; omega
          have hser : serialize (.node w cs) ++ rest =
              le32 (w.length % 2 ^ 32) ++ ((w.map fun c => c.toNat % 256) ++
                (le32 (cs.length % 2 ^ 32) ++ (serializeL cs ++ rest))) := by
            simp [serialize, List.append_assoc]
          rw [hser, deserNode]
          simp only [takeBytes_le32, Option.bind_eq_bind, Option.some_bind]
          rw [Nat.mod_eq_of_lt hwl, fromLE_le32 w.length hwl]
          have htb : takeBytes w.length ((w.map fun c => c.toNat % 256) ++
              (le32 (cs.length % 2 ^ 32) ++ (serializeL cs ++ rest))) =
              some ((w.map fun c => c.toNat % 256),
                le32 (cs.length % 2 ^ 32) ++ (serializeL cs ++ rest)) := by
            have h0 := takeBytes_append (w.map fun c => c.toNat % 256)
                (le32 (cs.length % 2 ^ 32) ++ (serializeL cs ++ rest))
            simpa using h0
          rw [htb]
          simp only [Option.some_bind]
          rw [takeBytes_le32]
          simp only [Option.some_bind]
          rw [Nat.mod_eq_of_lt hcl, fromLE_le32 cs.length hcl]
          rw [map_bytes_id w (fun c hc => hwchars c hc)]
          rw [deserChildren_serializeL cs
            (fun k c hm f' rest' hf' =>
              hrec k c hm (wfRangeL_mem cs hwfL k c hm) f' rest' hf')
            (fun k c hm => hkeys (k, c) hm)
            hnodup g [] w rest hg (fun k _ => by simp)]
          simp

/-- Reading back the bytes written by `BKTreeNode::serialize` reconstructs the
node exactly (for values within the machine ranges of the codec). -/
theorem deserialize_serialize (n : BKTreeNode) (h : wfRange n = true) :
    deserialize (serialize n) = some (n, []) := by
  have h1 := deserNode_serialize n h ((serialize n).length + 1) []
    (by have := needFuel_le n; omega)
  rw [List.append_nil] at h1
  unfold deserialize
  exact h1

end BKTreeNode

theorem isValidString_iff (s : List Char) :
    TreeBuilder.isValidString s = true ↔ ∀ c ∈ s, 'a' ≤ c ∧ c ≤ 'z' := by
  simp [TreeBuilder.isValidString, List.all_eq_true]

theorem readWordlist_validWord (lines : List (List Char)) :
    ∀ w ∈ TreeBuilder.readWordlist lines, validWord w := by
  intro w hw c hc
  unfold TreeBuilder.readWordlist at hw
  exact (isValidString_iff w).mp (List.mem_filter.mp hw).2 c hc

/-! ### The claims -/

/-- Claim C1, counterexample: in the single-node BK-tree storing "cat", the
word "cat" is stored, yet re-inserting it is not a no-op — the tree changes
(a duplicate node is attached at a 0-keyed edge, since the source has no
`d == 0` guard). -/
theorem claim_C1_counterexample :
    "cat".toList ∈ BKTreeNode.words (.node "cat".toList []) ∧
      BKTreeNode.insert (.node "cat".toList []) "cat".toList ≠ .node "cat".toList [] := by
  constructor
  · simp [BKTreeNode.words]
  · intro h
    have h1 := congrArg BKTreeNode.size h
    rw [BKTreeNode.size_insert] at h1
    omega

/-- Claim C1, amended: for every BK-tree and every word `w` already stored in
it, `insert(w)` terminates but modifies the tree: the walk always ends by
attaching one fresh node (for a duplicate, a `0`-keyed leaf below the node
whose word equals `w`), so the tree afterwards is never identical to the tree
before. -/
theorem claim_C1 : ∀ (t : BKTreeNode) (w : List Char), w ∈ BKTreeNode.words t →
    BKTreeNode.size (t.insert w) = BKTreeNode.size t + 1 ∧ t.insert w ≠ t := by
  intro t w _
  refine ⟨BKTreeNode.size_insert t w, ?_⟩
  intro h
  have h1 := congrArg BKTreeNode.size h
  rw [BKTreeNode.size_insert] at h1
  omega

/-- Claim C1, witness of the amended theorem at a concrete stored word. -/
theorem claim_C1_witness :
    BKTreeNode.size (BKTreeNode.insert (.node "cat".toList []) "cat".toList) =
      BKTreeNode.size (BKTreeNode.node "cat".toList []) + 1 ∧
      BKTreeNode.insert (.node "cat".toList []) "cat".toList ≠ .node "cat".toList [] :=
  claim_C1 (.node "cat".toList []) "cat".toList (by simp [BKTreeNode.words])

/-- Claim C2: for every BK-tree built by a sequence of insert calls of
distinct wildcard-free words and every word `w` stored in it, `find(w, 0)`
contains `w`. -/
theorem claim_C2 : ∀ ws : List (List Char), ws.Nodup → (∀ w ∈ ws, '*' ∉ w) →
    ∀ w ∈ ws, w ∈ BKTree.find (BKTree.build ws) w 0 := by
  intro ws _ _ w hw
  exact BKTree.fold_find_self ws none w hw

/-- Claim C2, witness on a concrete build. -/
theorem claim_C2_witness :
    "dog".toList ∈
      BKTree.find (BKTree.build ["cat".toList, "dog".toList]) "dog".toList 0 :=
  claim_C2 ["cat".toList, "dog".toList] (by decide) (by decide) "dog".toList (by decide)

/-- Claim C3: serialising a BK-tree node and deserialising the bytes yields a
query-equivalent tree — the same stored words and identical `find` results for
every query and tolerance (here the reconstruction is in fact exact).  The
hypothesis confines the node to the machine ranges of the codec: byte-valued
characters, `unsigned int` word length and child count, distinct child keys
representable in the serialised `unsigned short`. -/
theorem claim_C3 : ∀ n : BKTreeNode, BKTreeNode.wfRange n = true →
    ∃ n', BKTreeNode.deserialize (BKTreeNode.serialize n) = some (n', []) ∧
      BKTreeNode.words n' = BKTreeNode.words n ∧
      ∀ (q : List Char) (t : Nat), BKTreeNode.find q t n' = BKTreeNode.find q t n := by
  intro n h
  exact ⟨n, BKTreeNode.deserialize_serialize n h, rfl, fun _ _ => rfl⟩

/-- Claim C3, witness on a concrete two-node tree. -/
theorem claim_C3_witness :
    ∃ n', BKTreeNode.deserialize
        (BKTreeNode.serialize (.node "ab".toList [(1, .node "ac".toList [])])) =
          some (n', []) ∧
      BKTreeNode.words n' =
        BKTreeNode.words (.node "ab".toList [(1, .node "ac".toList [])]) ∧
      ∀ (q : List Char) (t : Nat), BKTreeNode.find q t n' =
        BKTreeNode.find q t (.node "ab".toList [(1, .node "ac".toList [])]) :=
  claim_C3 (.node "ab".toList [(1, .node "ac".toList [])]) (by decide)

/-- Claim C4, counterexample: the kernel returns 2 for
`editDistance("c*t", "dog")`, not 3 as claimed — the wildcard matches `o`
for free and only two substitutions remain. -/
theorem claim_C4_counterexample :
    EditDistance.editDistance "c*t".toList "dog".toList = 2 ∧
      EditDistance.editDistance "c*t".toList "dog".toList ≠ 3 := by
  constructor <;> decide

/-- Claim C4, amended: the edit-distance kernel returns the reference values
of the spec's scenarios except that `editDistance("c*t","dog") = 2`:
`kitten`/`sitting` is 3, `ca`/`abc` is 2 (true Damerau–Levenshtein, not
optimal string alignment), `abc`/`abc` is 0, `""`/`abc` is 3, `c*t`/`cat` is
0, `c*t`/`dog` is 2, `*`/`x` is 0. -/
theorem claim_C4 :
    EditDistance.editDistance "kitten".toList "sitting".toList = 3 ∧
    EditDistance.editDistance "ca".toList "abc".toList = 2 ∧
    EditDistance.editDistance "abc".toList "abc".toList = 0 ∧
    EditDistance.editDistance "".toList "abc".toList = 3 ∧
    EditDistance.editDistance "c*t".toList "cat".toList = 0 ∧
    EditDistance.editDistance "c*t".toList "dog".toList = 2 ∧
    EditDistance.editDistance "*".toList "x".toList = 0 := by
  refine ⟨?_, ?_, ?_, ?_, ?_, ?_, ?_⟩ <;> decide

/-- Claim C5, counterexample: on a Trie storing "a", the pattern "A" — whose
literal is outside `a..z` — is accepted: `isalpha` passes uppercase letters
and `hasChild` lowercases them, so `matchPattern` returns true and
`collectMatches` returns a non-empty list. -/
theorem claim_C5_counterexample :
    Trie.matchPattern (Trie.insert emptyTrieNode "a".toList) "A".toList = true ∧
      Trie.collectMatches (Trie.insert emptyTrieNode "a".toList) "A".toList [] =
        ["A".toList] := by
  constructor <;> decide

/-- Claim C5, amended: for every Trie and every pattern containing a literal
character that is not an ASCII letter (neither `a..z` nor `A..Z`, e.g. a
digit), `matchPattern` returns false and `collectMatches` returns the empty
list, regardless of which words are stored; uppercase literals are instead
accepted and matched as their lowercase. -/
theorem claim_C5 : ∀ (T : TrieNode) (pat : List Char),
    (∃ c ∈ pat, c ≠ '*' ∧ isalphaC c = false) →
    Trie.matchPattern T pat = false ∧ Trie.collectMatches T pat [] = [] :=
  fun T pat h => matchPattern_bad_literal pat T [] h

/-- Claim C5, witness at a concrete trie and pattern with a digit literal. -/
theorem claim_C5_witness :
    Trie.matchPattern (Trie.insert emptyTrieNode "a".toList) "a0".toList = false ∧
      Trie.collectMatches (Trie.insert emptyTrieNode "a".toList) "a0".toList [] = [] :=
  claim_C5 (Trie.insert emptyTrieNode "a".toList) "a0".toList
    ⟨'0', by decide, by decide, by decide⟩

/-- Claim C6: there is a word containing a character outside `a..z` (the
digit `0`) for which the slot index `tolower(c) - 'a'` computed by
`TrieNode::hasChild`/`createChild` during `Trie::insert` lies outside the
26-slot range `0..25` (an out-of-bounds access in the source). -/
theorem claim_C6 :
    ∃ w : List Char, ∃ c ∈ w, ¬ validChar c ∧ (slotIndex c < 0 ∨ 25 < slotIndex c) := by
  refine ⟨['0'], '0', by simp, by decide, by decide⟩

/-- Claim C7: for every list of words over `a..z` inserted into a fresh Trie,
`search` returns true exactly on the inserted words (false on every other
string over `a..z`), and `startsWith` returns true on every prefix of an
inserted word. -/
theorem claim_C7 : ∀ ws : List (List Char), (∀ u ∈ ws, validWord u) →
    (∀ w ∈ ws, Trie.search (Trie.build ws) w = true) ∧
    (∀ s, validWord s → s ∉ ws → Trie.search (Trie.build ws) s = false) ∧
    (∀ w ∈ ws, ∀ p, isPrefixW p w → Trie.startsWith (Trie.build ws) p = true) := by
  intro ws hws
  refine ⟨?_, ?_, ?_⟩
  · intro w hw
    exact (search_build ws emptyTrieNode w hws (hws w hw)).mpr (Or.inl hw)
  · intro s hs hnot
    cases h : Trie.search (Trie.build ws) s with
    | false => rfl
    | true =>
        rcases (search_build ws emptyTrieNode s hws hs).mp h with hmem | hfalse
        · exact absurd hmem hnot
        · rw [search_empty] at hfalse
          cases hfalse
  · intro w hw p hpre
    have hp : validWord p := by
      obtain ⟨r, hr⟩ := hpre
      intro c hc
      exact hws w hw c (by rw [← hr]; exact List.mem_append_left r hc)
    exact (startsWith_build ws emptyTrieNode p hws hp).mpr (Or.inl ⟨w, hw, hpre⟩)

/-- Claim C7, witness at a concrete word list. -/
theorem claim_C7_witness :
    Trie.search (Trie.build ["ab".toList]) "ab".toList = true ∧
      Trie.search (Trie.build ["ab".toList]) "b".toList = false ∧
      Trie.startsWith (Trie.build ["ab".toList]) "a".toList = true := by
  have h := claim_C7 ["ab".toList] (by decide)
  exact ⟨h.1 "ab".toList (by decide), h.2.1 "b".toList (by decide) (by decide),
    h.2.2 "ab".toList (by decide) "a".toList ⟨['b'], by decide⟩⟩

/-- Claim C8: `getValidEndings(text, start)` returns, in strictly increasing
order, exactly the offsets `e` with `start < e ≤ |text|` that are reached
before the first missing child and at which `text[start..e)` is a stored
word; on the trie of `the`, `them`, `there` it returns `[3, 4]` for
"themanran" and `[3, 5]` for "thereafter" from offset 0. -/
theorem claim_C8 :
    (∀ (root : TrieNode) (text : List Char) (startPos e : Nat),
        e ∈ Trie.getValidEndings root text startPos ↔
          startPos < e ∧ e ≤ text.length ∧
            Trie.search root ((text.take e).drop startPos) = true) ∧
    (∀ (root : TrieNode) (text : List Char) (startPos : Nat),
        List.Sorted (· < ·) (Trie.getValidEndings root text startPos)) ∧
    Trie.getValidEndings (Trie.build ["the".toList, "them".toList, "there".toList])
      "themanran".toList 0 = [3, 4] ∧
    Trie.getValidEndings (Trie.build ["the".toList, "them".toList, "there".toList])
      "thereafter".toList 0 = [3, 5] := by
  refine ⟨?_, ?_, by decide, by decide⟩
  · intro root text startPos e
    unfold Trie.getValidEndings
    rw [validEndingsFrom_mem]
    constructor
    · rintro ⟨m, hm1, hm2, hme, hsearch⟩
      rw [List.length_drop] at hm2
      refine ⟨by omega, by omega, ?_⟩
      rw [List.drop_take]
      have he : e - startPos = m := by omega
      rw [he]
      exact hsearch
    · rintro ⟨h1, h2, hsearch⟩
      refine ⟨e - startPos, by omega, by rw [List.length_drop]; omega, by omega, ?_⟩
      rw [← List.drop_take]
      exact hsearch
  · intro root text startPos
    exact validEndingsFrom_sorted (text.drop startPos) root startPos

/-- Claim C9: the builder's filter accepts a normalised line iff every byte
lies in `a..z`; the empty line passes vacuously, survives the pipeline, and
is inserted into the Trie as the empty word (marking the root terminal). -/
theorem claim_C9 :
    (∀ s : List Char, TreeBuilder.isValidString s = true ↔ ∀ c ∈ s, 'a' ≤ c ∧ c ≤ 'z') ∧
    TreeBuilder.isValidString [] = true ∧
    (∀ lines : List (List Char), [] ∈ lines →
      [] ∈ TreeBuilder.readWordlist lines ∧
        Trie.search (TreeBuilder.buildTrie lines) [] = true) := by
  refine ⟨isValidString_iff, rfl, ?_⟩
  intro lines hmem
  have hin : ([] : List Char) ∈ TreeBuilder.readWordlist lines := by
    unfold TreeBuilder.readWordlist
    apply List.mem_filter.mpr
    exact ⟨List.mem_map.mpr ⟨[], hmem, rfl⟩, rfl⟩
  refine ⟨hin, ?_⟩
  unfold TreeBuilder.buildTrie Trie.build
  exact (search_build (TreeBuilder.readWordlist lines) emptyTrieNode []
    (readWordlist_validWord lines)
    (fun c hc => absurd hc (List.not_mem_nil c))).mpr (Or.inl hin)

/-- Claim C9, witness on a wordlist consisting of one empty line. -/
theorem claim_C9_witness :
    ([] : List Char) ∈ TreeBuilder.readWordlist [[]] ∧
      Trie.search (TreeBuilder.buildTrie [[]]) [] = true :=
  claim_C9.2.2 [[]] (by simp)

/-- Claim C10: `BKTreeNode::insert` terminates on every finite tree and every
word: each loop iteration either attaches a new child and returns or descends
one level, so fuel `height + 1` always suffices and the loop computes the
functional insert. -/
theorem claim_C10 : ∀ (t : BKTreeNode) (w : List Char),
    BKTreeNode.insertLoop (BKTreeNode.height t + 1) t w = some (t.insert w) :=
  fun t w => BKTreeNode.insertLoop_insert (BKTreeNode.height t + 1) t w (by omega)
